import Mathlib

/-!
Verification of the git-scanner program (`scanner.py`).

The development shallowly embeds the three parts of the program the
properties below are about:

* `get_git_status` — the repository status probe.  Each of the three
  external `subprocess.run` invocations is modelled by a value of type
  `Except (List Char) RunResult`: `.error e` is the invocation mechanism
  raising an exception with message `e`, `.ok r` is a completed process
  with exit code, stdout and stderr.  The probe consumes the three
  responses in the order the program issues the queries.
* `scan_directory` — the `os.walk`-based tree classifier.  A filesystem
  tree is a (mutual) inductive value: a directory holds a list of file
  names and a named list of subdirectories.  The walk is pre-order, and
  mutating `dirs` in place (`dirs[:] = []`) is modelled by simply not
  recursing.  The git status of a discovered repository comes from a
  `probe` parameter, since it is obtained from the external tool.
* `filtered_uninit` — the ancestry filter inside `print_report`:
  `uninit.sort()` (lexicographic string sort, modelled by
  `List.insertionSort` over the lexicographic order on `List Char`,
  which yields the same sorted permutation) followed by the single
  left-to-right pass keeping a path unless it extends an already-kept
  path followed by `/` (`d.startswith(os.path.join(parent, ''))`).

Strings are modelled as `List Char`; paths are joined with `'/'` as
`os.path.join` does on posix.
-/

namespace GitScanner

/-- Whitespace characters removed by Python's `str.strip()` (ASCII part). -/
def isPySpace (c : Char) : Bool :=
  c = ' ' || c = '\t' || c = '\n' || c = '\r' || c = '\x0b' || c = '\x0c'

/-- Embedding of Python's `s.strip()`: drop leading and trailing whitespace. -/
def pyStrip (s : List Char) : List Char :=
  ((s.dropWhile isPySpace).reverse.dropWhile isPySpace).reverse

/-- Result of a completed `subprocess.run` call: exit code, stdout, stderr. -/
structure RunResult where
  returncode : Int
  stdout : List Char
  stderr : List Char
deriving DecidableEq

/-- The dictionary built by `get_git_status`. -/
structure GitStatus where
  is_dirty : Bool
  unpushed : Bool
  error : Option (List Char)
deriving DecidableEq, Inhabited

/-- Embedding of `get_git_status` (scanner.py lines 14–69).  `q1` is the
response to `git status --porcelain`, `q2` to the upstream resolution
`git rev-parse --abbrev-ref --symbolic-full-name @{u}`, `q3` to
`git log @{u}..`; `.error e` means the invocation raised an exception
caught by the surrounding `try`/`except`, which stores `str(e)`. -/
def get_git_status (q1 q2 q3 : Except (List Char) RunResult) : GitStatus :=
  match q1 with
  | .error e => { is_dirty := false, unpushed := false, error := some e }
  | .ok r1 =>
    if r1.returncode ≠ 0 then
      { is_dirty := false, unpushed := false, error := some (pyStrip r1.stderr) }
    else
      let d := !(pyStrip r1.stdout).isEmpty
      match q2 with
      | .error e => { is_dirty := d, unpushed := false, error := some e }
      | .ok r2 =>
        if r2.returncode = 0 then
          match q3 with
          | .error e => { is_dirty := d, unpushed := false, error := some e }
          | .ok r3 =>
            { is_dirty := d, unpushed := !(pyStrip r3.stdout).isEmpty, error := none }
        else
          { is_dirty := d, unpushed := false, error := none }

/-! ### The ancestry filter of `print_report` -/

/-- Embedding of Python's `s.startswith(p)` on strings as `List Char`. -/
def pyStartswith : List Char → List Char → Bool
  | _, [] => true
  | [], _ :: _ => false
  | c :: s, a :: p => (c == a) && pyStartswith s p

/-- Embedding of `d.startswith(os.path.join(parent, ''))` (scanner.py
line 189): `d` lies strictly under `parent` exactly when `parent ++ "/"`
is a string prefix of `d`. -/
def isSubdirOf (d parent : List Char) : Bool :=
  pyStartswith d (parent ++ ['/'])

/-- The left-to-right keeping pass of the ancestry filter (scanner.py
lines 183–193); the accumulator plays the role of `filtered_uninit`. -/
def filterPass : List (List Char) → List (List Char) → List (List Char)
  | [], kept => kept
  | d :: ds, kept =>
    if kept.any (fun parent => isSubdirOf d parent) then
      filterPass ds kept
    else
      filterPass ds (kept ++ [d])

/-- Embedding of the ancestry filter in `print_report` (scanner.py lines
181–193): `uninit.sort()` (lexicographic) followed by the keeping pass. -/
def filtered_uninit (uninit : List (List Char)) : List (List Char) :=
  filterPass (uninit.insertionSort (· ≤ ·)) []

/-! ### The tree classifier `scan_directory` -/

/-- The recognized source extensions (scanner.py lines 8–12). -/
def CODE_EXTENSIONS : List (List Char) :=
  [".py", ".js", ".ts", ".c", ".cpp", ".h", ".hpp", ".java",
   ".go", ".rs", ".rb", ".php", ".html", ".css", ".sh", ".bat",
   ".json", ".xml", ".yml", ".yaml", ".md"].map String.toList

/-- Embedding of `any(f.endswith(tuple(CODE_EXTENSIONS)) for f in files)`
(scanner.py line 126): some file name ends, case-sensitively, in a
recognized extension. -/
def hasCodeFile (files : List (List Char)) : Bool :=
  files.any (fun f => CODE_EXTENSIONS.any (fun e => e.isSuffixOf f))

/-- The version-control marker subdirectory name. -/
def gitName : List Char := ".git".toList

mutual
/-- A directory of the scanned filesystem: the names of the plain files
it directly contains, and its named subdirectories.  `os.walk` yields
exactly this information at each visited directory. -/
inductive FSTree : Type where
  | mk (files : List (List Char)) (subdirs : FSList)
/-- A list of named subdirectories. -/
inductive FSList : Type where
  | nil : FSList
  | cons (name : List Char) (tree : FSTree) (rest : FSList) : FSList
end

/-- The subdirectory names of a directory — the `dirs` list of `os.walk`. -/
def dirNames : FSList → List (List Char)
  | .nil => []
  | .cons n _ rest => n :: dirNames rest

/-- The subdirectories as a list of (name, tree) pairs. -/
def toPairs : FSList → List (List Char × FSTree)
  | .nil => []
  | .cons n t rest => (n, t) :: toPairs rest

/-- Embedding of `'.git' in dirs` (scanner.py line 87). -/
def hasGitDir (l : FSList) : Bool :=
  (dirNames l).contains gitName

mutual
/-- Embedding of the `os.walk` loop of `scan_directory` (scanner.py
lines 85–131) restricted to the subtree rooted at `path`.  A directory
whose `dirs` contain `.git` yields one repository record (whose status
comes from the external probe) and is pruned (`dirs[:] = []`); any
other directory is recorded as uninitialized when one of its files has
a code extension, and its subdirectories are walked in order
(pre-order, as `os.walk` with `topdown=True` does). -/
def scanT (probe : List Char → GitStatus) (path : List Char) :
    FSTree → List (List Char × GitStatus) × List (List Char)
  | .mk files subdirs =>
    if hasGitDir subdirs then
      ([(path, probe path)], [])
    else
      ((scanL probe path subdirs).1,
        (if hasCodeFile files then [path] else [])
          ++ (scanL probe path subdirs).2)
/-- The walk over a list of subdirectories of the directory at `path`;
each child is visited at `path ++ "/" ++ name` (`os.path.join`). -/
def scanL (probe : List Char → GitStatus) (path : List Char) :
    FSList → List (List Char × GitStatus) × List (List Char)
  | .nil => ([], [])
  | .cons n t rest =>
    ((scanT probe (path ++ '/' :: n) t).1 ++ (scanL probe path rest).1,
      (scanT probe (path ++ '/' :: n) t).2 ++ (scanL probe path rest).2)
end

/-- Embedding of `scan_directory(root_dir)`: the pair
`(found_repos, uninitialized_dirs)`. -/
def scan_directory (probe : List Char → GitStatus) (root_dir : List Char)
    (t : FSTree) : List (List Char × GitStatus) × List (List Char) :=
  scanT probe root_dir t

/-- The paths of a list of repository records. -/
def repoPaths (r : List (List Char × GitStatus)) : List (List Char) :=
  r.map Prod.fst

/-- All paths recorded by a scan result: repository paths followed by
uninitialized-directory paths. -/
def allPaths (r : List (List Char × GitStatus) × List (List Char)) :
    List (List Char) :=
  repoPaths r.1 ++ r.2

mutual
/-- Well-formedness of a directory tree, as every real filesystem
satisfies it: sibling names are distinct and no name contains the path
separator. -/
def wfT : FSTree → Bool
  | .mk _ subdirs => wfL subdirs
/-- Well-formedness of a subdirectory list. -/
def wfL : FSList → Bool
  | .nil => true
  | .cons n t rest =>
    !n.contains '/' && !(dirNames rest).contains n && wfT t && wfL rest
end

/-- A path suffix produced below a directory: empty (the directory
itself) or starting with the separator. -/
def headSlashOrNil (s : List Char) : Prop :=
  s = [] ∨ ∃ t, s = '/' :: t

/-- A probe whose result is irrelevant, for concrete evaluations. -/
def probe0 : List Char → GitStatus :=
  fun _ => { is_dirty := false, unpushed := false, error := none }

/-- A concrete repository directory: one source file and a `.git`
subdirectory. -/
def repoA : FSTree := .mk ["x.py".toList] (.cons gitName (.mk [] .nil) .nil)

/-- A second concrete repository directory. -/
def repoB : FSTree := .mk [] (.cons gitName (.mk [] .nil) .nil)

/-- A concrete root containing the two repositories side by side. -/
def T0 : FSTree := .mk [] (.cons "a".toList repoA (.cons "b".toList repoB .nil))

/-- A concrete root holding a source file next to a repository child. -/
def T1 : FSTree := .mk ["main.js".toList] (.cons "a".toList repoA .nil)

/-- A concrete subdirectory list: one child that is a repository. -/
def S2 : FSList := .cons "sub".toList repoA .nil

/-- Counterexample to claim C3: upstream resolution succeeds, `git log @{u}..` exits
non-zero (exit code 1, empty stdout, a diagnostic on stderr) — yet the
returned status has `error = none`, because the code never inspects the
exit code of the log query. -/
theorem log_nonzero_error_not_set :
    (get_git_status (.ok ⟨0, [], []⟩)
      (.ok ⟨0, "origin/main".toList, []⟩)
      (.ok ⟨1, [], "fatal: bad revision".toList⟩)).error = none := by
  rfl

/-- Claim C3 as amended: when the upstream-resolution query succeeds but the
list-commits query exits non-zero, the probe leaves `error` unset and
computes `unpushed` from the log query's stdout exactly as in the
success case (`false` when the stripped stdout is empty). -/
theorem log_nonzero_ignored (r1 r2 r3 : RunResult)
    (h1 : r1.returncode = 0) (h2 : r2.returncode = 0) (_h3 : r3.returncode ≠ 0) :
    (get_git_status (.ok r1) (.ok r2) (.ok r3)).error = none ∧
    (get_git_status (.ok r1) (.ok r2) (.ok r3)).unpushed
      = !(pyStrip r3.stdout).isEmpty := by
  simp [get_git_status, h1, h2]

/-- Witness for `log_nonzero_ignored` at a concrete input. -/
theorem log_nonzero_ignored_witness :
    ((0 : Int) = 0 ∧ (0 : Int) = 0 ∧ (1 : Int) ≠ 0) ∧
      ((get_git_status (.ok ⟨0, [], []⟩) (.ok ⟨0, "origin/main".toList, []⟩)
          (.ok ⟨1, [], "fatal: bad revision".toList⟩)).error = none ∧
        (get_git_status (.ok ⟨0, [], []⟩) (.ok ⟨0, "origin/main".toList, []⟩)
          (.ok ⟨1, [], "fatal: bad revision".toList⟩)).unpushed
          = !(pyStrip (("" : String).toList)).isEmpty) :=
  ⟨⟨rfl, rfl, by decide⟩,
    log_nonzero_ignored ⟨0, [], []⟩ ⟨0, "origin/main".toList, []⟩
      ⟨1, [], "fatal: bad revision".toList⟩ rfl rfl (by decide)⟩

/-- Claim C5: the probe is total (it always returns a status record, by its
type), and an exception raised during whichever of the three queries is
actually executed is folded into the `error` field of the returned
record, never propagated. -/
theorem probe_never_propagates (q1 q2 q3 : Except (List Char) RunResult) :
    (∀ e, q1 = .error e → (get_git_status q1 q2 q3).error = some e) ∧
    (∀ r1 e, q1 = .ok r1 → r1.returncode = 0 → q2 = .error e →
      (get_git_status q1 q2 q3).error = some e) ∧
    (∀ r1 r2 e, q1 = .ok r1 → r1.returncode = 0 → q2 = .ok r2 →
      r2.returncode = 0 → q3 = .error e →
      (get_git_status q1 q2 q3).error = some e) := by
  refine ⟨?_, ?_, ?_⟩
  · rintro e rfl
    rfl
  · rintro r1 e rfl h1 rfl
    simp [get_git_status, h1]
  · rintro r1 r2 e rfl h1 rfl h2 rfl
    simp [get_git_status, h1, h2]

/-- Witness for `probe_never_propagates` at a concrete input. -/
theorem probe_never_propagates_witness :
    (Except.error "boom".toList
        = (Except.error "boom".toList : Except (List Char) RunResult)) ∧
      (get_git_status (.error "boom".toList) (.ok ⟨0, [], []⟩)
        (.ok ⟨0, [], []⟩)).error = some "boom".toList :=
  ⟨rfl,
    (probe_never_propagates (.error "boom".toList) (.ok ⟨0, [], []⟩)
        (.ok ⟨0, [], []⟩)).1 "boom".toList rfl⟩

/-- Claim C7: when the first query succeeds with exit code 0 and the upstream
resolution query completes with a non-zero exit code, the probe reports
`unpushed = false` and sets no error. -/
theorem no_upstream_not_error (r1 r2 : RunResult) (q3 : Except (List Char) RunResult)
    (h1 : r1.returncode = 0) (h2 : r2.returncode ≠ 0) :
    (get_git_status (.ok r1) (.ok r2) q3).unpushed = false ∧
    (get_git_status (.ok r1) (.ok r2) q3).error = none := by
  simp [get_git_status, h1, h2]

/-- Witness for `no_upstream_not_error` at a concrete input. -/
theorem no_upstream_not_error_witness :
    ((0 : Int) = 0 ∧ (128 : Int) ≠ 0) ∧
      ((get_git_status (.ok ⟨0, [], []⟩) (.ok ⟨128, [], "fatal".toList⟩)
          (.ok ⟨0, [], []⟩)).unpushed = false ∧
        (get_git_status (.ok ⟨0, [], []⟩) (.ok ⟨128, [], "fatal".toList⟩)
          (.ok ⟨0, [], []⟩)).error = none) :=
  ⟨⟨rfl, by decide⟩,
    no_upstream_not_error ⟨0, [], []⟩ ⟨128, [], "fatal".toList⟩
      (.ok ⟨0, [], []⟩) rfl (by decide)⟩

/-- Claim C8: when the short-status query exits non-zero, or its invocation
raises, the probe returns the full default record with `error` set to
the captured diagnostic (stripped stderr, resp. the exception message)
and `is_dirty = false`, `unpushed = false`. -/
theorem status_failure_record (q2 q3 : Except (List Char) RunResult) :
    (∀ e, get_git_status (.error e) q2 q3
        = { is_dirty := false, unpushed := false, error := some e }) ∧
    (∀ r1, r1.returncode ≠ 0 → get_git_status (.ok r1) q2 q3
        = { is_dirty := false, unpushed := false,
            error := some (pyStrip r1.stderr) }) := by
  constructor
  · intro e
    rfl
  · intro r1 h1
    simp [get_git_status, h1]

/-- Witness for `status_failure_record` at a concrete input. -/
theorem status_failure_record_witness :
    ((128 : Int) ≠ 0) ∧
      get_git_status (.ok ⟨128, [], " not a git repository\n".toList⟩)
          (.ok ⟨0, [], []⟩) (.ok ⟨0, [], []⟩)
        = { is_dirty := false, unpushed := false,
            error := some (pyStrip " not a git repository\n".toList) } :=
  ⟨by decide,
    (status_failure_record (.ok ⟨0, [], []⟩) (.ok ⟨0, [], []⟩)).2
      ⟨128, [], " not a git repository\n".toList⟩ (by decide)⟩

theorem pyStartswith_iff : ∀ {s p : List Char},
    pyStartswith s p = true ↔ p <+: s := by
  intro s
  induction s with
  | nil =>
    intro p
    cases p with
    | nil => simp [pyStartswith]
    | cons a p => simp [pyStartswith]
  | cons c s ih =>
    intro p
    cases p with
    | nil => simp [pyStartswith]
    | cons a p =>
      simp only [pyStartswith, Bool.and_eq_true, beq_iff_eq,
        List.cons_prefix_cons, ih]
      exact and_congr_left (fun _ => eq_comm)

theorem subdir_length {d p : List Char} (h : isSubdirOf d p = true) :
    p.length < d.length := by
  have := (pyStartswith_iff.mp h).length_le
  simpa using this

theorem isSubdirOf_irrefl (p : List Char) : isSubdirOf p p = false := by
  rw [Bool.eq_false_iff]
  intro h
  exact absurd (subdir_length h) (lt_irrefl _)

theorem subdir_lt {d p : List Char} (h : isSubdirOf d p = true) : p < d := by
  obtain ⟨t, ht⟩ := pyStartswith_iff.mp h
  have hlt : List.Lex (· < ·) (p ++ []) (p ++ '/' :: t) :=
    List.Lex.append_left _ List.Lex.nil p
  rw [List.append_nil] at hlt
  have hd : d = p ++ '/' :: t := by
    rw [← ht]
    simp
  rw [hd]
  exact hlt

theorem filterPass_extends (ds kept : List (List Char)) :
    kept <+: filterPass ds kept := by
  induction ds generalizing kept with
  | nil => exact List.prefix_rfl
  | cons d ds ih =>
    simp only [filterPass]
    split
    · exact ih kept
    · exact (List.prefix_append kept [d]).trans (ih _)

theorem mem_filterPass_src {ds kept : List (List Char)} {x : List Char}
    (h : x ∈ filterPass ds kept) : x ∈ kept ∨ x ∈ ds := by
  induction ds generalizing kept with
  | nil => exact Or.inl h
  | cons d ds ih =>
    simp only [filterPass] at h
    split at h
    · rcases ih h with h' | h'
      · exact Or.inl h'
      · exact Or.inr (List.mem_cons_of_mem _ h')
    · rcases ih h with h' | h'
      · rcases List.mem_append.mp h' with h'' | h''
        · exact Or.inl h''
        · have hx : x = d := by simpa using h''
          exact Or.inr (hx ▸ List.mem_cons_self _ _)
      · exact Or.inr (List.mem_cons_of_mem _ h')

theorem filterPass_dropped {ds kept : List (List Char)} {d : List Char}
    (hmem : d ∈ ds) (hnot : d ∉ filterPass ds kept) :
    ∃ p ∈ filterPass ds kept, isSubdirOf d p = true := by
  induction ds generalizing kept with
  | nil => cases hmem
  | cons d0 ds ih =>
    rcases List.mem_cons.mp hmem with rfl | hmem'
    · by_cases h : kept.any (fun parent => isSubdirOf d parent) = true
      · simp only [filterPass, if_pos h] at hnot ⊢
        obtain ⟨p, hp, hsub⟩ := List.any_eq_true.mp h
        exact ⟨p, (filterPass_extends ds kept).subset hp, hsub⟩
      · exfalso
        apply hnot
        simp only [filterPass, if_neg h]
        exact (filterPass_extends ds (kept ++ [d])).subset (by simp)
    · by_cases h : kept.any (fun parent => isSubdirOf d0 parent) = true
      · simp only [filterPass, if_pos h] at hnot ⊢
        exact ih hmem' hnot
      · simp only [filterPass, if_neg h] at hnot ⊢
        exact ih hmem' hnot

theorem filterPass_sorted {ds kept : List (List Char)}
    (h : (kept ++ ds).Sorted (· ≤ ·)) :
    (filterPass ds kept).Sorted (· ≤ ·) := by
  induction ds generalizing kept with
  | nil => simpa using h
  | cons d ds ih =>
    simp only [filterPass]
    split
    · apply ih
      exact h.sublist (List.Sublist.append_left (List.sublist_cons_self d ds) kept)
    · apply ih
      rw [List.append_assoc]
      simpa using h

theorem filterPass_no_overlap {ds kept : List (List Char)}
    (hsort : ds.Sorted (· ≤ ·))
    (hle : ∀ p ∈ kept, ∀ e ∈ ds, p ≤ e)
    (hinv : ∀ p ∈ kept, ∀ q ∈ kept, isSubdirOf p q = false) :
    ∀ p ∈ filterPass ds kept, ∀ q ∈ filterPass ds kept,
      isSubdirOf p q = false := by
  induction ds generalizing kept with
  | nil => simpa [filterPass] using hinv
  | cons d ds ih =>
    obtain ⟨hd_le, hsort'⟩ := List.sorted_cons.mp hsort
    by_cases h : kept.any (fun parent => isSubdirOf d parent) = true
    · simp only [filterPass, if_pos h]
      exact ih hsort'
        (fun p hp e he => hle p hp e (List.mem_cons_of_mem _ he)) hinv
    · simp only [filterPass, if_neg h]
      apply ih hsort'
      · intro p hp e he
        rcases List.mem_append.mp hp with hp' | hp'
        · exact hle p hp' e (List.mem_cons_of_mem _ he)
        · have hpd : p = d := by simpa using hp'
          exact hpd ▸ hd_le e he
      · intro p hp q hq
        have hanyfalse : ∀ q' ∈ kept, isSubdirOf d q' = false := by
          intro q' hq'
          by_contra hcon
          exact h (List.any_eq_true.mpr
            ⟨q', hq', by simpa using Bool.eq_false_iff.mp.mt (by simpa using hcon)⟩)
        rcases List.mem_append.mp hp with hp' | hp' <;>
          rcases List.mem_append.mp hq with hq' | hq'
        · exact hinv p hp' q hq'
        · have hqd : q = d := by simpa using hq'
          subst hqd
          rw [Bool.eq_false_iff]
          intro hcon
          exact absurd (subdir_lt hcon)
            (not_lt.mpr (hle p hp' q (List.mem_cons_self _ _)))
        · have hpd : p = d := by simpa using hp'
          subst hpd
          exact hanyfalse q hq'
        · have hpd : p = d := by simpa using hp'
          have hqd : q = d := by simpa using hq'
          subst hpd
          subst hqd
          exact isSubdirOf_irrefl _

/-- Claim C4: after the ancestry filter, for any two surviving paths `P ≠ Q`,
neither is a strict path-segment prefix of the other (`isSubdirOf Q P`
says `P ++ "/"` is a prefix of `Q`, i.e. `P` is a strict segment prefix
of `Q`). -/
theorem filtered_no_nesting (paths : List (List Char)) (P Q : List Char)
    (hP : P ∈ filtered_uninit paths) (hQ : Q ∈ filtered_uninit paths)
    (_hne : P ≠ Q) :
    isSubdirOf Q P = false ∧ isSubdirOf P Q = false := by
  have key := @filterPass_no_overlap (paths.insertionSort (· ≤ ·)) []
    (List.sorted_insertionSort _ paths) (by simp) (by simp)
  exact ⟨key Q hQ P hP, key P hP Q hQ⟩

/-- Witness for `filtered_no_nesting` at a concrete input. -/
theorem filtered_no_nesting_witness :
    ("/a/b".toList ∈
        filtered_uninit ["/a/b/c".toList, "/a/b".toList, "/x".toList] ∧
      "/x".toList ∈
        filtered_uninit ["/a/b/c".toList, "/a/b".toList, "/x".toList] ∧
      "/a/b".toList ≠ "/x".toList) ∧
    (isSubdirOf "/x".toList "/a/b".toList = false ∧
      isSubdirOf "/a/b".toList "/x".toList = false) :=
  ⟨⟨by decide, by decide, by decide⟩,
    filtered_no_nesting ["/a/b/c".toList, "/a/b".toList, "/x".toList]
      "/a/b".toList "/x".toList (by decide) (by decide) (by decide)⟩

/-- Claim C6: the descendant test of the ancestry filter matches on full path
segments, not raw string prefixes: `/a/bb` is not a descendant of
`/a/b` and both survive the filter; in general a candidate is dropped
only when it lies strictly under (separator-terminated prefix) a path
kept in the output. -/
theorem filter_segment_semantics :
    (filtered_uninit ["/a/b".toList, "/a/bb".toList]
        = ["/a/b".toList, "/a/bb".toList] ∧
      isSubdirOf "/a/bb".toList "/a/b".toList = false) ∧
    (∀ paths d, d ∈ paths → d ∉ filtered_uninit paths →
      ∃ p ∈ filtered_uninit paths, isSubdirOf d p = true) := by
  refine ⟨⟨by decide, by decide⟩, ?_⟩
  intro paths d hmem hnot
  exact filterPass_dropped ((List.mem_insertionSort _).mpr hmem) hnot

/-- Witness for `filter_segment_semantics` at a concrete input. -/
theorem filter_segment_semantics_witness :
    ("/p/q/r".toList ∈ ["/p/q".toList, "/p/q/r".toList] ∧
      "/p/q/r".toList ∉ filtered_uninit ["/p/q".toList, "/p/q/r".toList]) ∧
    ∃ p ∈ filtered_uninit ["/p/q".toList, "/p/q/r".toList],
      isSubdirOf "/p/q/r".toList p = true :=
  ⟨⟨by decide, by decide⟩,
    filter_segment_semantics.2 ["/p/q".toList, "/p/q/r".toList]
      "/p/q/r".toList (by decide) (by decide)⟩

/-- Claim C10: the ancestry filter's output is lexicographically sorted, every
output path comes from the input, and every dropped input path is a
strict path-segment descendant of some surviving path. -/
theorem filter_sorted_subset_represented (paths : List (List Char)) :
    (filtered_uninit paths).Sorted (· ≤ ·) ∧
    (∀ x ∈ filtered_uninit paths, x ∈ paths) ∧
    (∀ d ∈ paths, d ∉ filtered_uninit paths →
      ∃ p ∈ filtered_uninit paths, isSubdirOf d p = true) := by
  refine ⟨?_, ?_, ?_⟩
  · exact filterPass_sorted (by simpa using List.sorted_insertionSort _ paths)
  · intro x hx
    rcases mem_filterPass_src hx with h | h
    · cases h
    · exact (List.mem_insertionSort _).mp h
  · intro d hmem hnot
    exact filterPass_dropped ((List.mem_insertionSort _).mpr hmem) hnot

/-- Witness for `filter_sorted_subset_represented` at a concrete input. -/
theorem filter_sorted_subset_represented_witness :
    ("/m/n".toList ∈ filtered_uninit ["/z".toList, "/m/n".toList] ∧
      "/m/n".toList ∈ ["/z".toList, "/m/n".toList]) ∧
    ("/m/n/o".toList ∈ ["/m/n".toList, "/m/n/o".toList] ∧
      "/m/n/o".toList ∉ filtered_uninit ["/m/n".toList, "/m/n/o".toList]) ∧
    ∃ p ∈ filtered_uninit ["/m/n".toList, "/m/n/o".toList],
      isSubdirOf "/m/n/o".toList p = true :=
  ⟨⟨by decide,
      (filter_sorted_subset_represented ["/z".toList, "/m/n".toList]).2.1
        "/m/n".toList (by decide)⟩,
    ⟨by decide, by decide⟩,
    (filter_sorted_subset_represented ["/m/n".toList, "/m/n/o".toList]).2.2
      "/m/n/o".toList (by decide) (by decide)⟩

theorem slashfree_append_cases :
    ∀ (a : List Char) (b u v : List Char), '/' ∉ a → '/' ∉ b →
      headSlashOrNil u → headSlashOrNil v →
      (a ++ u) <+: (b ++ v) →
      (a = b ∧ u <+: v) ∨ (u = [] ∧ a <+: b) := by
  intro a
  induction a with
  | nil =>
    intro b u v _ hb hu _ hpre
    cases b with
    | nil => exact Or.inl ⟨rfl, by simpa using hpre⟩
    | cons d b' =>
      rcases hu with rfl | ⟨u', rfl⟩
      · exact Or.inr ⟨rfl, List.nil_prefix⟩
      · have hd := (List.cons_prefix_cons.mp (by simpa using hpre)).1
        exact absurd (hd ▸ List.mem_cons_self _ _) hb
  | cons c a' ih =>
    intro b u v ha hb hu hv hpre
    cases b with
    | nil =>
      rcases hv with rfl | ⟨v', rfl⟩
      · simp at hpre
      · have hc := (List.cons_prefix_cons.mp (by simpa using hpre)).1
        exact absurd (hc ▸ List.mem_cons_self c a') ha
    | cons d b' =>
      obtain ⟨rfl, htail⟩ := List.cons_prefix_cons.mp (by simpa using hpre)
      have ha' : '/' ∉ a' := fun h => ha (List.mem_cons_of_mem _ h)
      have hb' : '/' ∉ b' := fun h => hb (List.mem_cons_of_mem _ h)
      rcases ih b' u v ha' hb' hu hv htail with ⟨rfl, huv⟩ | ⟨rfl, hab⟩
      · exact Or.inl ⟨rfl, huv⟩
      · exact Or.inr ⟨rfl, List.cons_prefix_cons.mpr ⟨rfl, hab⟩⟩

theorem cross_paths_disjoint {p n1 s1 n2 s2 : List Char}
    (h1 : '/' ∉ n1) (h2 : '/' ∉ n2) (hne : n1 ≠ n2)
    (hs1 : headSlashOrNil s1) (hs2 : headSlashOrNil s2) :
    isSubdirOf (p ++ '/' :: (n1 ++ s1)) (p ++ '/' :: (n2 ++ s2)) = false ∧
    p ++ '/' :: (n1 ++ s1) ≠ p ++ '/' :: (n2 ++ s2) := by
  constructor
  · rw [Bool.eq_false_iff]
    intro hcon
    have hpre := pyStartswith_iff.mp hcon
    have hpre' : (n2 ++ (s2 ++ ['/'])) <+: (n1 ++ s1) := by
      have e1 : (p ++ '/' :: (n2 ++ s2)) ++ ['/']
          = (p ++ ['/']) ++ (n2 ++ (s2 ++ ['/'])) := by simp
      have e2 : p ++ '/' :: (n1 ++ s1) = (p ++ ['/']) ++ (n1 ++ s1) := by simp
      rw [e1, e2] at hpre
      exact (List.prefix_append_right_inj _).mp hpre
    have hu : headSlashOrNil (s2 ++ ['/']) := by
      rcases hs2 with rfl | ⟨t, rfl⟩
      · exact Or.inr ⟨[], rfl⟩
      · exact Or.inr ⟨t ++ ['/'], rfl⟩
    rcases slashfree_append_cases n2 n1 (s2 ++ ['/']) s1 h2 h1 hu hs1 hpre' with
      ⟨heq, _⟩ | ⟨hnil, _⟩
    · exact hne heq.symm
    · simp at hnil
  · intro hcon
    have hcon' : n1 ++ s1 = n2 ++ s2 := by
      have := List.append_cancel_left hcon
      simpa using this
    have hf := slashfree_append_cases n1 n2 s1 s2 h1 h2 hs1 hs2
      (hcon' ▸ List.prefix_rfl)
    have hg := slashfree_append_cases n2 n1 s2 s1 h2 h1 hs2 hs1
      (hcon'.symm ▸ List.prefix_rfl)
    rcases hf with ⟨heq, _⟩ | ⟨_, hab⟩
    · exact hne heq
    · rcases hg with ⟨heq, _⟩ | ⟨_, hba⟩
      · exact hne heq.symm
      · exact hne (hab.sublist.antisymm hba.sublist)

theorem wfL_cons_parts {n : List Char} {t : FSTree} {rest : FSList}
    (h : wfL (.cons n t rest) = true) :
    '/' ∉ n ∧ n ∉ dirNames rest ∧ wfT t = true ∧ wfL rest = true := by
  simp only [wfL, Bool.and_eq_true, Bool.not_eq_true'] at h
  obtain ⟨⟨⟨h1, h2⟩, h3⟩, h4⟩ := h
  refine ⟨?_, ?_, h3, h4⟩
  · intro hc
    rw [show (n.contains '/') = true by
      simpa using List.elem_eq_true_of_mem hc] at h1
    cases h1
  · intro hc
    rw [show ((dirNames rest).contains n) = true by
      simpa using List.elem_eq_true_of_mem hc] at h2
    cases h2

theorem wfL_names : ∀ {l : FSList}, wfL l = true →
    ∀ m ∈ dirNames l, '/' ∉ m
  | .nil, _, m, hm => by cases hm
  | .cons n t rest, h, m, hm => by
    obtain ⟨h1, _, _, h4⟩ := wfL_cons_parts h
    rcases List.mem_cons.mp (by simpa [dirNames] using hm) with rfl | hm'
    · exact h1
    · exact wfL_names h4 m hm'

theorem mem_allPaths_left {r : List (List Char × GitStatus) × List (List Char)}
    {x : List Char} (h : x ∈ repoPaths r.1) : x ∈ allPaths r :=
  List.mem_append_left _ h

theorem mem_allPaths_right {r : List (List Char × GitStatus) × List (List Char)}
    {x : List Char} (h : x ∈ r.2) : x ∈ allPaths r :=
  List.mem_append_right _ h

theorem repoPaths_append (a b : List (List Char × GitStatus)) :
    repoPaths (a ++ b) = repoPaths a ++ repoPaths b :=
  List.map_append _ _ _

theorem scanT_eq_not_git {probe : List Char → GitStatus} {p : List Char}
    {files : List (List Char)} {subdirs : FSList}
    (hg : hasGitDir subdirs = false) :
    scanT probe p (.mk files subdirs)
      = ((scanL probe p subdirs).1,
          (if hasCodeFile files then [p] else [])
            ++ (scanL probe p subdirs).2) := by
  simp [scanT, hg]

theorem scanT_eq_git {probe : List Char → GitStatus} {p : List Char}
    {files : List (List Char)} {subdirs : FSList}
    (hg : hasGitDir subdirs = true) :
    scanT probe p (.mk files subdirs) = ([(p, probe p)], []) := by
  simp [scanT, hg]

theorem scanL_eq_cons (probe : List Char → GitStatus) (p n : List Char)
    (t : FSTree) (rest : FSList) :
    scanL probe p (.cons n t rest)
      = ((scanT probe (p ++ '/' :: n) t).1 ++ (scanL probe p rest).1,
          (scanT probe (p ++ '/' :: n) t).2 ++ (scanL probe p rest).2) := by
  simp [scanL]

mutual
theorem shapeT (probe : List Char → GitStatus) (p : List Char) :
    ∀ (t : FSTree), ∀ x ∈ allPaths (scanT probe p t),
      ∃ s, x = p ++ s ∧ headSlashOrNil s
  | .mk files subdirs => by
    intro x hx
    by_cases hg : hasGitDir subdirs = true
    · rw [scanT_eq_git hg] at hx
      have hx' : x = p := by simpa [allPaths, repoPaths] using hx
      exact ⟨[], by simp [hx'], Or.inl rfl⟩
    · rw [Bool.not_eq_true] at hg
      rw [scanT_eq_not_git hg] at hx
      have hsub : x ∈ allPaths (scanL probe p subdirs) →
          ∃ s, x = p ++ s ∧ headSlashOrNil s := by
        intro hmem
        obtain ⟨n, s, _, hxe, hs⟩ := shapeL probe p subdirs x hmem
        exact ⟨'/' :: (n ++ s), hxe, Or.inr ⟨n ++ s, rfl⟩⟩
      rcases List.mem_append.mp hx with hrepo | hrest
      · exact hsub (mem_allPaths_left hrepo)
      · rcases List.mem_append.mp hrest with hite | huninit
        · have hx' : x = p := by
            by_cases hc : hasCodeFile files
            · simpa [hc] using hite
            · simp [hc] at hite
          exact ⟨[], by simp [hx'], Or.inl rfl⟩
        · exact hsub (mem_allPaths_right huninit)
theorem shapeL (probe : List Char → GitStatus) (p : List Char) :
    ∀ (l : FSList), ∀ x ∈ allPaths (scanL probe p l),
      ∃ n s, n ∈ dirNames l ∧ x = p ++ '/' :: (n ++ s) ∧ headSlashOrNil s
  | .nil => by
    intro x hx
    simp [allPaths, scanL, repoPaths] at hx
  | .cons n t rest => by
    intro x hx
    rw [scanL_eq_cons] at hx
    have child : x ∈ allPaths (scanT probe (p ++ '/' :: n) t) →
        ∃ m s, m ∈ dirNames (FSList.cons n t rest) ∧
          x = p ++ '/' :: (m ++ s) ∧ headSlashOrNil s := by
      intro hmem
      obtain ⟨s, hxe, hs⟩ := shapeT probe (p ++ '/' :: n) t x hmem
      exact ⟨n, s, by simp [dirNames], by simp [hxe], hs⟩
    have restcase : x ∈ allPaths (scanL probe p rest) →
        ∃ m s, m ∈ dirNames (FSList.cons n t rest) ∧
          x = p ++ '/' :: (m ++ s) ∧ headSlashOrNil s := by
      intro hmem
      obtain ⟨m, s, hm, hxe, hs⟩ := shapeL probe p rest x hmem
      exact ⟨m, s, by simp [dirNames, hm], hxe, hs⟩
    have hx' : x ∈ repoPaths ((scanT probe (p ++ '/' :: n) t).1
          ++ (scanL probe p rest).1)
        ∨ x ∈ (scanT probe (p ++ '/' :: n) t).2
          ++ (scanL probe p rest).2 := List.mem_append.mp hx
    rcases hx' with h | h
    · rw [repoPaths_append] at h
      rcases List.mem_append.mp h with h' | h'
      · exact child (mem_allPaths_left h')
      · exact restcase (mem_allPaths_left h')
    · rcases List.mem_append.mp h with h' | h'
      · exact child (mem_allPaths_right h')
      · exact restcase (mem_allPaths_right h')
end

mutual
theorem noOverlapT_aux (probe : List Char → GitStatus) (p : List Char) :
    ∀ (t : FSTree), wfT t = true →
      ∀ x ∈ repoPaths (scanT probe p t).1,
        ∀ y ∈ repoPaths (scanT probe p t).1, isSubdirOf x y = false
  | .mk files subdirs => by
    intro hw x hx y hy
    by_cases hg : hasGitDir subdirs = true
    · rw [scanT_eq_git hg] at hx hy
      have hx' : x = p := by simpa [repoPaths] using hx
      have hy' : y = p := by simpa [repoPaths] using hy
      rw [hx', hy']
      exact isSubdirOf_irrefl p
    · rw [Bool.not_eq_true] at hg
      rw [scanT_eq_not_git hg] at hx hy
      have hw' : wfL subdirs = true := by simpa [wfT] using hw
      exact noOverlapL_aux probe p subdirs hw' x hx y hy
theorem noOverlapL_aux (probe : List Char → GitStatus) (p : List Char) :
    ∀ (l : FSList), wfL l = true →
      ∀ x ∈ repoPaths (scanL probe p l).1,
        ∀ y ∈ repoPaths (scanL probe p l).1, isSubdirOf x y = false
  | .nil => by
    intro _ x hx
    simp [scanL, repoPaths] at hx
  | .cons n t rest => by
    intro hw x hx y hy
    obtain ⟨hn, hnd, hwt, hwr⟩ := wfL_cons_parts hw
    rw [scanL_eq_cons, repoPaths_append] at hx hy
    have cross : ∀ a b : List Char,
        a ∈ repoPaths (scanT probe (p ++ '/' :: n) t).1 →
        b ∈ repoPaths (scanL probe p rest).1 →
        isSubdirOf a b = false ∧ isSubdirOf b a = false := by
      intro a b ha hb
      obtain ⟨s1, ha1, hs1⟩ :=
        shapeT probe (p ++ '/' :: n) t a (mem_allPaths_left ha)
      obtain ⟨m, s2, hm, hb1, hs2⟩ :=
        shapeL probe p rest b (mem_allPaths_left hb)
      have ha2 : a = p ++ '/' :: (n ++ s1) := by simp [ha1]
      have hmn : n ≠ m := fun h => hnd (h ▸ hm)
      have hms : '/' ∉ m := wfL_names hwr m hm
      constructor
      · rw [ha2, hb1]
        exact (cross_paths_disjoint hn hms hmn hs1 hs2).1
      · rw [ha2, hb1]
        exact (cross_paths_disjoint hms hn (fun h => hmn h.symm) hs2 hs1).1
    rcases List.mem_append.mp hx with hxa | hxb <;>
      rcases List.mem_append.mp hy with hya | hyb
    · exact noOverlapT_aux probe (p ++ '/' :: n) t hwt x hxa y hya
    · exact (cross x y hxa hyb).1
    · exact (cross y x hya hxb).2
    · exact noOverlapL_aux probe p rest hwr x hxb y hyb
end

mutual
theorem disjointT_aux (probe : List Char → GitStatus) (p : List Char) :
    ∀ (t : FSTree), wfT t = true →
      ∀ x ∈ repoPaths (scanT probe p t).1, x ∉ (scanT probe p t).2
  | .mk files subdirs => by
    intro hw x hx hx2
    by_cases hg : hasGitDir subdirs = true
    · rw [scanT_eq_git hg] at hx2
      simp at hx2
    · rw [Bool.not_eq_true] at hg
      have hw' : wfL subdirs = true := by simpa [wfT] using hw
      rw [scanT_eq_not_git hg] at hx hx2
      rcases List.mem_append.mp hx2 with hite | huninit
      · have hx2' : x = p := by
          by_cases hc : hasCodeFile files
          · simpa [hc] using hite
          · simp [hc] at hite
        obtain ⟨m, s, _, hxe, _⟩ :=
          shapeL probe p subdirs x (mem_allPaths_left hx)
        rw [hx2'] at hxe
        have := congrArg List.length hxe
        simp at this
      · exact disjointL_aux probe p subdirs hw' x hx huninit
theorem disjointL_aux (probe : List Char → GitStatus) (p : List Char) :
    ∀ (l : FSList), wfL l = true →
      ∀ x ∈ repoPaths (scanL probe p l).1, x ∉ (scanL probe p l).2
  | .nil => by
    intro _ x hx
    simp [scanL, repoPaths] at hx
  | .cons n t rest => by
    intro hw x hx hx2
    obtain ⟨hn, hnd, hwt, hwr⟩ := wfL_cons_parts hw
    rw [scanL_eq_cons, repoPaths_append] at hx
    rw [scanL_eq_cons] at hx2
    rcases List.mem_append.mp hx with hxa | hxb <;>
      rcases List.mem_append.mp hx2 with hua | hub
    · exact disjointT_aux probe (p ++ '/' :: n) t hwt x hxa hua
    · obtain ⟨s1, hx1, hs1⟩ :=
        shapeT probe (p ++ '/' :: n) t x (mem_allPaths_left hxa)
      obtain ⟨m, s2, hm, hx2e, hs2⟩ :=
        shapeL probe p rest x (mem_allPaths_right hub)
      have hx1' : x = p ++ '/' :: (n ++ s1) := by simp [hx1]
      exact (cross_paths_disjoint hn (wfL_names hwr m hm)
          (fun h => hnd (h ▸ hm)) hs1 hs2).2 (hx1'.symm.trans hx2e)
    · obtain ⟨m, s1, hm, hx1, hs1⟩ :=
        shapeL probe p rest x (mem_allPaths_left hxb)
      obtain ⟨s2, hx2e, hs2⟩ :=
        shapeT probe (p ++ '/' :: n) t x (mem_allPaths_right hua)
      have hx2e' : x = p ++ '/' :: (n ++ s2) := by simp [hx2e]
      exact (cross_paths_disjoint (wfL_names hwr m hm) hn
          (fun h => hnd (h.symm ▸ hm)) hs1 hs2).2 (hx1.symm.trans hx2e')
    · exact disjointL_aux probe p rest hwr x hxb hub
end

theorem child_sublist (probe : List Char → GitStatus) (p : List Char) :
    ∀ (l : FSList) (n : List Char) (t : FSTree), (n, t) ∈ toPairs l →
      List.Sublist (scanT probe (p ++ '/' :: n) t).1 (scanL probe p l).1 ∧
      List.Sublist (scanT probe (p ++ '/' :: n) t).2 (scanL probe p l).2
  | .nil => by
    intro n t h
    simp [toPairs] at h
  | .cons n0 t0 rest => by
    intro n t h
    have h' : (n = n0 ∧ t = t0) ∨ (n, t) ∈ toPairs rest := by
      simpa [toPairs] using h
    rcases h' with ⟨rfl, rfl⟩ | hmem
    · rw [scanL_eq_cons]
      exact ⟨List.sublist_append_left _ _, List.sublist_append_left _ _⟩
    · have hr := child_sublist probe p rest n t hmem
      rw [scanL_eq_cons]
      exact ⟨hr.1.trans (List.sublist_append_right _ _),
        hr.2.trans (List.sublist_append_right _ _)⟩

/-- Claim C1: in a well-formed filesystem tree (distinct sibling names,
no separator inside a name), no repository path returned by
`scan_directory` lies strictly under another returned repository path:
the walk prunes all descent once a directory is classified as a
repository root. -/
theorem scan_repos_no_overlap (probe : List Char → GitStatus)
    (root : List Char) (t : FSTree) (hw : wfT t = true) (x y : List Char)
    (hx : x ∈ repoPaths (scan_directory probe root t).1)
    (hy : y ∈ repoPaths (scan_directory probe root t).1) :
    isSubdirOf x y = false :=
  noOverlapT_aux probe root t hw x hx y hy

/-- Claim C2: in a well-formed filesystem tree, no path appears both as
a repository-record path and as an uninitialized-directory path of one
`scan_directory` result. -/
theorem scan_collections_disjoint (probe : List Char → GitStatus)
    (root : List Char) (t : FSTree) (hw : wfT t = true) (x : List Char)
    (hx : x ∈ repoPaths (scan_directory probe root t).1) :
    x ∉ (scan_directory probe root t).2 :=
  disjointT_aux probe root t hw x hx

/-- Claim C9: a visited directory without the `.git` marker subdirectory
that directly contains a file with a recognized source extension is
recorded in the uninitialized collection, and the walk still descends
into every one of its subdirectories (each child subtree's results are
a sublist of the directory's results). -/
theorem code_dir_recorded_and_descended (probe : List Char → GitStatus)
    (p : List Char) (files : List (List Char)) (subdirs : FSList)
    (hg : hasGitDir subdirs = false) (hc : hasCodeFile files = true) :
    p ∈ (scanT probe p (.mk files subdirs)).2 ∧
    ∀ n t, (n, t) ∈ toPairs subdirs →
      List.Sublist (scanT probe (p ++ '/' :: n) t).1 (scanT probe p (.mk files subdirs)).1 ∧
      List.Sublist (scanT probe (p ++ '/' :: n) t).2 (scanT probe p (.mk files subdirs)).2 := by
  rw [scanT_eq_not_git hg]
  constructor
  · simp [hc]
  · intro n t hmem
    have h1 := child_sublist probe p subdirs n t hmem
    refine ⟨h1.1, h1.2.trans ?_⟩
    exact List.sublist_append_right _ _

/-- Witness for `scan_repos_no_overlap` at a concrete tree. -/
theorem scan_repos_no_overlap_witness :
    (wfT T0 = true ∧
      "/r/a".toList ∈ repoPaths (scan_directory probe0 "/r".toList T0).1 ∧
      "/r/b".toList ∈ repoPaths (scan_directory probe0 "/r".toList T0).1) ∧
    isSubdirOf "/r/a".toList "/r/b".toList = false :=
  ⟨⟨by decide, by decide, by decide⟩,
    scan_repos_no_overlap probe0 "/r".toList T0 (by decide)
      "/r/a".toList "/r/b".toList (by decide) (by decide)⟩

/-- Witness for `scan_collections_disjoint` at a concrete tree. -/
theorem scan_collections_disjoint_witness :
    (wfT T1 = true ∧
      "/r/a".toList ∈ repoPaths (scan_directory probe0 "/r".toList T1).1) ∧
    "/r/a".toList ∉ (scan_directory probe0 "/r".toList T1).2 :=
  ⟨⟨by decide, by decide⟩,
    scan_collections_disjoint probe0 "/r".toList T1 (by decide)
      "/r/a".toList (by decide)⟩

/-- Witness for `code_dir_recorded_and_descended` at a concrete tree. -/
theorem code_dir_recorded_and_descended_witness :
    (hasGitDir S2 = false ∧ hasCodeFile ["script.js".toList] = true) ∧
    ("/w".toList ∈ (scanT probe0 "/w".toList (.mk ["script.js".toList] S2)).2 ∧
      List.Sublist (scanT probe0 ("/w".toList ++ '/' :: "sub".toList) repoA).1
          (scanT probe0 "/w".toList (.mk ["script.js".toList] S2)).1 ∧
      List.Sublist (scanT probe0 ("/w".toList ++ '/' :: "sub".toList) repoA).2
          (scanT probe0 "/w".toList (.mk ["script.js".toList] S2)).2) :=
  ⟨⟨by decide, by decide⟩,
    (code_dir_recorded_and_descended probe0 "/w".toList
        ["script.js".toList] S2 (by decide) (by decide)).1,
    (code_dir_recorded_and_descended probe0 "/w".toList
        ["script.js".toList] S2 (by decide) (by decide)).2
      "sub".toList repoA (List.mem_cons_self _ _)⟩

end GitScanner
